import Mathlib

/-!
Verification of the multi-agent coordination substrate described in the
design document of this repository (message bus, layered memory store,
context compressor, task router, agent runtime) together with the
dashboard pages that are present as TypeScript source.

The bus, memory store, compressor, router and runtime have no code in the
repository snapshot; their definitions below are modelled from the
specification text.  The dashboard definitions are translated from the
TypeScript pages (ProjectManagement, AgentMonitoring, TaskAnalysis).
-/

namespace AgentCore

/-- Modelled from the spec: the memory tiers of the four-tier store
(Core/Working/Episodic/Semantic), §3 and §4.2 of the design document. -/
inductive Tier where
  | core
  | working
  | episodic
  | semantic
deriving DecidableEq

/-- Modelled from the spec: the MemoryItem record of §3.  The opaque
content and embedding are abstracted away; `tokens` is the estimated
token size of the content, which is what the compressor budgets. -/
@[ext]
structure MemoryItem where
  id : Nat
  tier : Tier
  projectId : Nat
  tokens : Nat
  importance : Nat
  createdAt : Nat
  lastAccessedAt : Nat
deriving DecidableEq

/-- Numeric code of a tier, used only as a deterministic tie-break key. -/
def tierCode : Tier → Nat
  | .core => 0
  | .working => 1
  | .episodic => 2
  | .semantic => 3

/-- Injective key over all fields of an item except `importance`,
used to make the compressor order deterministic. -/
def tieKey (i : MemoryItem) : Nat :=
  Nat.pair i.id (Nat.pair i.projectId (Nat.pair i.tokens
    (Nat.pair i.createdAt (Nat.pair i.lastAccessedAt (tierCode i.tier)))))

/-- Modelled from the spec: the order in which the compressor keeps items,
highest importance first (truncation drops lowest-importance items first,
§4.3); ties are broken by a deterministic key. -/
def itemBefore (a b : MemoryItem) : Prop :=
  b.importance < a.importance ∨
    (b.importance = a.importance ∧ tieKey a ≤ tieKey b)

instance : DecidableRel itemBefore := fun a b => by
  unfold itemBefore; exact inferInstance

theorem tierCode_injective {s t : Tier} (h : tierCode s = tierCode t) :
    s = t := by
  cases s <;> cases t <;> simp_all [tierCode]

theorem tieKey_injective {a b : MemoryItem}
    (himp : a.importance = b.importance) (h : tieKey a = tieKey b) :
    a = b := by
  unfold tieKey at h
  rw [Nat.pair_eq_pair] at h
  obtain ⟨h1, h⟩ := h
  rw [Nat.pair_eq_pair] at h
  obtain ⟨h2, h⟩ := h
  rw [Nat.pair_eq_pair] at h
  obtain ⟨h3, h⟩ := h
  rw [Nat.pair_eq_pair] at h
  obtain ⟨h4, h⟩ := h
  rw [Nat.pair_eq_pair] at h
  obtain ⟨h5, h6⟩ := h
  ext
  · exact h1
  · exact tierCode_injective h6
  · exact h2
  · exact h3
  · exact himp
  · exact h4
  · exact h5

instance : IsTotal MemoryItem itemBefore := by
  constructor
  intro a b
  unfold itemBefore
  rcases Nat.lt_trichotomy a.importance b.importance with h | h | h
  · exact Or.inr (Or.inl h)
  · rcases Nat.le_total (tieKey a) (tieKey b) with hk | hk
    · exact Or.inl (Or.inr ⟨h.symm, hk⟩)
    · exact Or.inr (Or.inr ⟨h, hk⟩)
  · exact Or.inl (Or.inl h)

instance : IsTrans MemoryItem itemBefore := by
  constructor
  intro a b c hab hbc
  unfold itemBefore at *
  rcases hab with h1 | ⟨h1, h1k⟩ <;> rcases hbc with h2 | ⟨h2, h2k⟩
  · exact Or.inl (by omega)
  · exact Or.inl (by omega)
  · exact Or.inl (by omega)
  · exact Or.inr ⟨by omega, Nat.le_trans h1k h2k⟩

instance : IsAntisymm MemoryItem itemBefore := by
  constructor
  intro a b hab hba
  unfold itemBefore at *
  rcases hab with h1 | ⟨h1, h1k⟩ <;> rcases hba with h2 | ⟨h2, h2k⟩
  · omega
  · omega
  · omega
  · exact tieKey_injective (by omega) (Nat.le_antisymm h1k h2k)

theorem importance_le_of_itemBefore {a b : MemoryItem}
    (h : itemBefore a b) : b.importance ≤ a.importance := by
  rcases h with h | ⟨h, _⟩ <;> omega

/-- Modelled from the spec: sorting an agent working set with the
highest-importance items first (§4.3 truncation order). -/
def sortByImportance (l : List MemoryItem) : List MemoryItem :=
  l.insertionSort itemBefore

/-- Modelled from the spec: the estimated token size of a sequence of
memory items, the quantity compared against the token budget. -/
def totalTokens (l : List MemoryItem) : Nat :=
  (l.map MemoryItem.tokens).sum

/-- Modelled from the spec: truncation keeps items in order while they fit
the remaining budget and drops the (lower-importance) tail. -/
def takeWithin : Nat → List MemoryItem → List MemoryItem
  | _, [] => []
  | b, i :: rest =>
      if i.tokens ≤ b then i :: takeWithin (b - i.tokens) rest else []

/-- Modelled from the spec: positional reordering, §4.3 — the highest
importance item goes to the start of the sequence and the second highest
to the end, never buried in the middle. -/
def reorder : List MemoryItem → List MemoryItem
  | [] => []
  | [x] => [x]
  | x :: y :: rest => x :: (rest ++ [y])

/-- Whether an item is in the core tier. -/
def isCore (i : MemoryItem) : Bool :=
  i.tier == Tier.core

/-- Modelled from the spec: `compress(items, tokenBudget)` of §4.3.
Core-tier items are never dropped; the remaining items are kept highest
importance first while they fit the remaining budget (truncation), and
the kept items are positionally reordered. -/
def compress (items : List MemoryItem) (tokenBudget : Nat) :
    List MemoryItem :=
  items.filter isCore ++
    reorder (takeWithin (tokenBudget - totalTokens (items.filter isCore))
      (sortByImportance (items.filter fun i => !(isCore i))))

theorem takeWithin_sublist (b : Nat) (l : List MemoryItem) :
    List.Sublist (takeWithin b l) l := by
  induction l generalizing b with
  | nil => simp [takeWithin]
  | cons i rest ih =>
      unfold takeWithin
      split
      · exact List.Sublist.cons₂ i (ih _)
      · exact List.nil_sublist _

theorem sorted_takeWithin {l : List MemoryItem} (b : Nat)
    (h : List.Sorted itemBefore l) :
    List.Sorted itemBefore (takeWithin b l) :=
  List.Pairwise.sublist (takeWithin_sublist b l) h

theorem totalTokens_takeWithin_le (b : Nat) (l : List MemoryItem) :
    totalTokens (takeWithin b l) ≤ b := by
  induction l generalizing b with
  | nil => simp [takeWithin, totalTokens]
  | cons i rest ih =>
      unfold takeWithin
      split
      · rename_i hfit
        have h2 := ih (b - i.tokens)
        simp only [totalTokens, List.map_cons, List.sum_cons]
        simp only [totalTokens] at h2
        omega
      · simp [totalTokens]

theorem takeWithin_eq_self {l : List MemoryItem} {b : Nat}
    (h : totalTokens l ≤ b) : takeWithin b l = l := by
  induction l generalizing b with
  | nil => simp [takeWithin]
  | cons i rest ih =>
      simp only [totalTokens, List.map_cons, List.sum_cons] at h
      have hr : totalTokens rest ≤ b - i.tokens := by
        simp only [totalTokens]; omega
      unfold takeWithin
      rw [if_pos (by omega), ih hr]

theorem reorder_perm (l : List MemoryItem) : List.Perm (reorder l) l := by
  match l with
  | [] => exact List.Perm.refl _
  | [x] => exact List.Perm.refl _
  | x :: y :: rest =>
      exact List.Perm.cons x (List.perm_append_singleton y rest)

theorem totalTokens_reorder (l : List MemoryItem) :
    totalTokens (reorder l) = totalTokens l :=
  ((reorder_perm l).map MemoryItem.tokens).sum_eq

theorem mem_reorder {l : List MemoryItem} {z : MemoryItem} :
    z ∈ reorder l ↔ z ∈ l :=
  (reorder_perm l).mem_iff

theorem sortByImportance_sorted (l : List MemoryItem) :
    List.Sorted itemBefore (sortByImportance l) :=
  List.sorted_insertionSort itemBefore l

theorem sortByImportance_perm (l : List MemoryItem) :
    List.Perm (sortByImportance l) l :=
  List.perm_insertionSort itemBefore l

/-- Sorting the reordered form of a sorted list recovers the sorted list. -/
theorem sortByImportance_reorder_eq {l : List MemoryItem}
    (h : List.Sorted itemBefore l) : sortByImportance (reorder l) = l :=
  List.eq_of_perm_of_sorted
    ((sortByImportance_perm (reorder l)).trans (reorder_perm l))
    (sortByImportance_sorted (reorder l)) h

/-- A compressed shape (core items followed by a reordered, sorted,
within-budget kept list) is a fixed point of `compress`. -/
theorem compress_fixed (C K : List MemoryItem) (B : Nat)
    (hCall : ∀ i ∈ C, isCore i = true)
    (hKall : ∀ i ∈ K, isCore i = false)
    (hsorted : List.Sorted itemBefore K)
    (hfit : totalTokens K ≤ B - totalTokens C) :
    compress (C ++ reorder K) B = C ++ reorder K := by
  have hRall : ∀ i ∈ reorder K, isCore i = false :=
    fun i hi => hKall i (mem_reorder.mp hi)
  unfold compress
  rw [List.filter_append, List.filter_eq_self.mpr hCall,
    List.filter_eq_nil_iff.mpr (fun i hi => by simp [hRall i hi]),
    List.append_nil]
  rw [List.filter_append,
    List.filter_eq_nil_iff.mpr (fun i hi => by simp [hCall i hi]),
    List.nil_append,
    List.filter_eq_self.mpr (fun i hi => by simp [hRall i hi])]
  rw [sortByImportance_reorder_eq hsorted, takeWithin_eq_self hfit]

/-- C1: for every sequence of memory items X and every token budget B, the
context compressor is idempotent: compress (compress X B) B equals
compress X B, so re-compressing an already-compressed set does not
shrink it further below the already-met budget. -/
theorem compress_idempotent (items : List MemoryItem) (B : Nat) :
    compress (compress items B) B = compress items B := by
  have h : compress items B =
      items.filter isCore ++
        reorder (takeWithin (B - totalTokens (items.filter isCore))
          (sortByImportance (items.filter fun i => !(isCore i)))) := rfl
  rw [h]
  apply compress_fixed
  · exact fun i hi => List.of_mem_filter hi
  · intro i hi
    have h2 : i ∈ sortByImportance (items.filter fun i => !(isCore i)) :=
      (takeWithin_sublist _ _).subset hi
    have h3 := (sortByImportance_perm _).mem_iff.mp h2
    simpa using List.of_mem_filter h3
  · exact sorted_takeWithin _ (sortByImportance_sorted _)
  · exact totalTokens_takeWithin_le _ _

/-- C5: for a non-empty collection of working-memory items whose total
estimated token size exceeds the budget B, compress returns a sequence of
estimated token size at most B, and whenever at least two items are
retained the highest-importance retained item is at the start of the
returned sequence and the second highest at the end, never in the
middle. -/
theorem compress_budget_and_positions (items : List MemoryItem) (B : Nat)
    (hne : items ≠ [])
    (hw : ∀ i ∈ items, i.tier = Tier.working)
    (hover : B < totalTokens items) :
    totalTokens (compress items B) ≤ B ∧
    (2 ≤ (compress items B).length →
      ∃ x mid y, compress items B = x :: (mid ++ [y]) ∧
        (∀ z ∈ compress items B, z.importance ≤ x.importance) ∧
        (∀ z ∈ mid, z.importance ≤ y.importance)) := by
  have hcore : items.filter isCore = [] :=
    List.filter_eq_nil_iff.mpr (fun i hi => by simp [isCore, hw i hi])
  have hothers : items.filter (fun i => !(isCore i)) = items :=
    List.filter_eq_self.mpr (fun i hi => by simp [isCore, hw i hi])
  have hcompress : compress items B =
      reorder (takeWithin B (sortByImportance items)) := by
    unfold compress
    rw [hcore, hothers]
    simp [totalTokens]
  constructor
  · rw [hcompress, totalTokens_reorder]
    exact totalTokens_takeWithin_le _ _
  · rw [hcompress]
    have hsorted : List.Sorted itemBefore
        (takeWithin B (sortByImportance items)) :=
      sorted_takeWithin _ (sortByImportance_sorted _)
    generalize takeWithin B (sortByImportance items) = K at hsorted ⊢
    match K, hsorted with
    | [], _ => intro h2; simp [reorder] at h2
    | [x], _ => intro h2; simp [reorder] at h2
    | a :: b :: rest, hsorted =>
        intro h2
        refine ⟨a, rest, b, by simp [reorder], ?_, ?_⟩
        · intro z hz
          have hz2 : z ∈ a :: b :: rest := mem_reorder.mp hz
          rcases List.mem_cons.mp hz2 with h | h
          · exact h ▸ Nat.le_refl _
          · exact importance_le_of_itemBefore
              (List.rel_of_sorted_cons hsorted z h)
        · intro z hz
          exact importance_le_of_itemBefore
            (List.rel_of_sorted_cons hsorted.of_cons z hz)

/-- A concrete working set used to witness the compressor theorems. -/
def demoItems : List MemoryItem :=
  [⟨1, Tier.working, 7, 5, 10, 3, 4⟩,
   ⟨2, Tier.working, 7, 5, 8, 2, 5⟩,
   ⟨3, Tier.working, 7, 5, 6, 1, 6⟩]

/-- Witness for C5 at a concrete over-budget working set. -/
theorem compress_budget_and_positions_witness :
    totalTokens (compress demoItems 12) ≤ 12 ∧
    (2 ≤ (compress demoItems 12).length →
      ∃ x mid y, compress demoItems 12 = x :: (mid ++ [y]) ∧
        (∀ z ∈ compress demoItems 12, z.importance ≤ x.importance) ∧
        (∀ z ∈ mid, z.importance ≤ y.importance)) :=
  compress_budget_and_positions demoItems 12 (by decide)
    (by decide) (by decide)

/-- Modelled from the spec: `decay(tick)` of §4.2 reduces the importance
of working and episodic items by a monotonic function of age; core and
semantic tiers are exempt from decay. -/
def decayItem (now : Nat) (i : MemoryItem) : MemoryItem :=
  if i.tier = Tier.core ∨ i.tier = Tier.semantic then i
  else { i with importance := i.importance - (now - i.createdAt) }

/-- Modelled from the spec: a working item whose importance falls below
the floor is evicted from the working tier by being summarized into the
episodic tier, not discarded (§4.2). -/
def demoteBelowFloor (floor : Nat) (i : MemoryItem) : MemoryItem :=
  if i.tier = Tier.working ∧ i.importance < floor then
    { i with tier := Tier.episodic }
  else i

/-- Modelled from the spec: when episodic capacity is exceeded, the
lowest-importance episodic items are hard-deleted (§4.2); other tiers
are untouched. -/
def pruneEpisodic (epCap : Nat) (store : List MemoryItem) :
    List MemoryItem :=
  if (store.filter fun i => i.tier == Tier.episodic).length ≤ epCap then
    store
  else
    (store.filter fun i => !(i.tier == Tier.episodic)) ++
      (sortByImportance (store.filter fun i =>
        i.tier == Tier.episodic)).take epCap

/-- Modelled from the spec: one periodic decay tick of the memory store
(§4.2): decay importance, evict below-floor working items into the
episodic tier, then enforce the episodic capacity. -/
def decayStep (now floor epCap : Nat) (store : List MemoryItem) :
    List MemoryItem :=
  pruneEpisodic epCap
    ((store.map (decayItem now)).map (demoteBelowFloor floor))

/-- Modelled from the spec: the operations that can touch the stored
items over time — periodic decay/eviction ticks and context-compression
calls. -/
inductive StoreOp where
  | decayTick (now floor epCap : Nat)
  | compressCall (tokenBudget : Nat)

/-- Applies one store operation. -/
def applyStoreOp : StoreOp → List MemoryItem → List MemoryItem
  | .decayTick now floor epCap, s => decayStep now floor epCap s
  | .compressCall b, s => compress s b

/-- Runs a sequence of store operations. -/
def runStore (ops : List StoreOp) (store : List MemoryItem) :
    List MemoryItem :=
  ops.foldl (fun s op => applyStoreOp op s) store

theorem decayItem_core {i : MemoryItem} (h : i.tier = Tier.core)
    (now : Nat) : decayItem now i = i := by
  unfold decayItem
  rw [if_pos (Or.inl h)]

theorem demoteBelowFloor_core {i : MemoryItem} (h : i.tier = Tier.core)
    (floor : Nat) : demoteBelowFloor floor i = i := by
  unfold demoteBelowFloor
  rw [if_neg]
  intro hcon
  rw [h] at hcon
  exact absurd hcon.1 (by simp)

theorem pruneEpisodic_core {i : MemoryItem} (h : i.tier = Tier.core)
    (epCap : Nat) {store : List MemoryItem} (hmem : i ∈ store) :
    i ∈ pruneEpisodic epCap store := by
  unfold pruneEpisodic
  split
  · exact hmem
  · apply List.mem_append_left
    apply List.mem_filter.mpr
    exact ⟨hmem, by simp [h]⟩

theorem applyStoreOp_keeps_core {i : MemoryItem} (h : i.tier = Tier.core)
    (op : StoreOp) {store : List MemoryItem} (hmem : i ∈ store) :
    i ∈ applyStoreOp op store := by
  cases op with
  | decayTick now floor epCap =>
      apply pruneEpisodic_core h
      have h1 : decayItem now i ∈ store.map (decayItem now) :=
        List.mem_map_of_mem (decayItem now) hmem
      rw [decayItem_core h now] at h1
      have h2 : demoteBelowFloor floor i ∈
          (store.map (decayItem now)).map (demoteBelowFloor floor) :=
        List.mem_map_of_mem (demoteBelowFloor floor) h1
      rw [demoteBelowFloor_core h floor] at h2
      exact h2
  | compressCall b =>
      apply List.mem_append_left
      exact List.mem_filter.mpr ⟨hmem, by simp [isCore, h]⟩

/-- C2: for every sequence of decay ticks, compression calls and eviction
steps, a core-tier MemoryItem present in the store is never evicted,
summarized away or dropped: it is still present, unchanged, after the
whole sequence. -/
theorem core_items_never_dropped (ops : List StoreOp)
    (store : List MemoryItem) (i : MemoryItem)
    (h : i.tier = Tier.core) (hmem : i ∈ store) :
    i ∈ runStore ops store := by
  induction ops generalizing store with
  | nil => exact hmem
  | cons op rest ih =>
      exact ih (applyStoreOp op store) (applyStoreOp_keeps_core h op hmem)

/-- Witness for C2 at a concrete core item and operation sequence. -/
theorem core_items_never_dropped_witness :
    (⟨9, Tier.core, 7, 4, 1, 0, 0⟩ : MemoryItem) ∈
      runStore [StoreOp.decayTick 50 100 0, StoreOp.compressCall 0]
        [⟨9, Tier.core, 7, 4, 1, 0, 0⟩, ⟨1, Tier.working, 7, 5, 10, 3, 4⟩] :=
  core_items_never_dropped
    [StoreOp.decayTick 50 100 0, StoreOp.compressCall 0]
    [⟨9, Tier.core, 7, 4, 1, 0, 0⟩, ⟨1, Tier.working, 7, 5, 10, 3, 4⟩]
    ⟨9, Tier.core, 7, 4, 1, 0, 0⟩ rfl (by decide)

/-- Modelled from the spec: the terminal outcome recorded in the Bus
delivery ledger for an exactly-once (direct) message (§3, §4.1). -/
inductive DeliveryOutcome where
  | delivered
  | deadLettered
deriving DecidableEq

/-- Modelled from the spec: the lifecycle status of a direct message,
owned by the Bus until acknowledged or dead-lettered (§3). -/
inductive MsgStatus where
  | pending
  | acked
  | deadLettered
deriving DecidableEq

/-- Modelled from the spec: the Bus bookkeeping for one direct message:
the retry counter, the status, the attempt history carried to the
dead-letter queue, and the delivery ledger (§4.1). -/
structure DirectState where
  attempt : Nat
  status : MsgStatus
  history : List Nat
  ledger : List DeliveryOutcome
deriving DecidableEq

/-- The Bus state for a freshly published direct message. -/
def initDirect : DirectState :=
  { attempt := 0, status := .pending, history := [], ledger := [] }

/-- Modelled from the spec: what the environment does with one delivery
attempt — the recipient acknowledges in time, or the attempt fails
(timeout) and is retried (§4.1). -/
inductive BusEvent where
  | deliverOk
  | deliverFail

/-- Modelled from the spec: one Bus step for a direct message.  A
successful attempt acknowledges the message once and records the
delivered outcome; a failed attempt is retried up to the max-attempt
count, after which the message is dead-lettered together with its full
attempt history.  Terminal states are absorbing. -/
def stepDirect (maxAttempts : Nat) (s : DirectState) (e : BusEvent) :
    DirectState :=
  match s.status with
  | .pending =>
      match e with
      | .deliverOk =>
          { attempt := s.attempt + 1, status := .acked,
            history := s.history ++ [s.attempt + 1],
            ledger := s.ledger ++ [.delivered] }
      | .deliverFail =>
          if maxAttempts ≤ s.attempt + 1 then
            { attempt := s.attempt + 1, status := .deadLettered,
              history := s.history ++ [s.attempt + 1],
              ledger := s.ledger ++ [.deadLettered] }
          else
            { attempt := s.attempt + 1, status := .pending,
              history := s.history ++ [s.attempt + 1],
              ledger := s.ledger }
  | _ => s

/-- Runs the Bus bookkeeping for a direct message over a sequence of
delivery-attempt events. -/
def runDirect (maxAttempts : Nat) (evs : List BusEvent) : DirectState :=
  evs.foldl (stepDirect maxAttempts) initDirect

/-- The inductive invariant of the direct-message state machine after
`n` processed events. -/
def DirectInv (maxAttempts n : Nat) (s : DirectState) : Prop :=
  (s.status = .pending →
    s.ledger = [] ∧ s.attempt = n ∧ s.attempt < maxAttempts ∧
      s.history.length = s.attempt) ∧
  (s.status = .acked → s.ledger = [.delivered]) ∧
  (s.status = .deadLettered →
    s.ledger = [.deadLettered] ∧ s.history.length = maxAttempts)

theorem stepDirect_inv {maxAttempts n : Nat} {s : DirectState}
    (e : BusEvent) (h : DirectInv maxAttempts n s) :
    DirectInv maxAttempts (n + 1) (stepDirect maxAttempts s e) := by
  obtain ⟨att, st, hist, led⟩ := s
  obtain ⟨hp, ha, hd⟩ := h
  cases st with
  | pending =>
      obtain ⟨hl0, hn0, hlt0, hh0⟩ := hp rfl
      have hl : led = [] := hl0
      have hn : att = n := hn0
      have hlt : att < maxAttempts := hlt0
      have hh : hist.length = att := hh0
      cases e with
      | deliverOk =>
          refine ⟨fun hcon => absurd hcon (by simp [stepDirect]),
            fun _ => ?_, fun hcon => absurd hcon (by simp [stepDirect])⟩
          show led ++ [DeliveryOutcome.delivered] = [.delivered]
          simp [hl]
      | deliverFail =>
          have hstep : stepDirect maxAttempts
              ⟨att, .pending, hist, led⟩ .deliverFail =
              if maxAttempts ≤ att + 1 then
                ⟨att + 1, .deadLettered, hist ++ [att + 1],
                  led ++ [.deadLettered]⟩
              else ⟨att + 1, .pending, hist ++ [att + 1], led⟩ := rfl
          rw [hstep]
          by_cases hc : maxAttempts ≤ att + 1
          · rw [if_pos hc]
            refine ⟨fun hcon => absurd hcon (by simp),
              fun hcon => absurd hcon (by simp), fun _ => ⟨?_, ?_⟩⟩
            · show led ++ [DeliveryOutcome.deadLettered] = [.deadLettered]
              simp [hl]
            · show (hist ++ [att + 1]).length = maxAttempts
              simp only [List.length_append, List.length_cons,
                List.length_nil]
              omega
          · rw [if_neg hc]
            refine ⟨fun _ => ⟨?_, ?_, ?_, ?_⟩,
              fun hcon => absurd hcon (by simp),
              fun hcon => absurd hcon (by simp)⟩
            · exact hl
            · show att + 1 = n + 1
              omega
            · show att + 1 < maxAttempts
              omega
            · show (hist ++ [att + 1]).length = att + 1
              simp only [List.length_append, List.length_cons,
                List.length_nil]
              omega
  | acked =>
      exact ⟨fun hcon => absurd hcon (by simp [stepDirect]),
        fun _ => ha rfl, fun hcon => absurd hcon (by simp [stepDirect])⟩
  | deadLettered =>
      exact ⟨fun hcon => absurd hcon (by simp [stepDirect]),
        fun hcon => absurd hcon (by simp [stepDirect]), fun _ => hd rfl⟩

theorem foldl_stepDirect_inv (maxAttempts : Nat) (evs : List BusEvent) :
    ∀ (n : Nat) (s : DirectState), DirectInv maxAttempts n s →
      DirectInv maxAttempts (n + evs.length)
        (evs.foldl (stepDirect maxAttempts) s) := by
  induction evs with
  | nil => intro n s h; simpa using h
  | cons e rest ih =>
      intro n s h
      have h2 := ih (n + 1) (stepDirect maxAttempts s e)
        (stepDirect_inv e h)
      simp only [List.foldl_cons, List.length_cons]
      have harith : n + 1 + rest.length = n + (rest.length + 1) := by omega
      rw [harith] at h2
      exact h2

/-- C3: for every direct message, once enough delivery attempts have
happened (at least the max-attempt count), exactly one of the two
terminal outcomes holds — acknowledged once, or dead-lettered together
with its full attempt history — the message is never both acknowledged
and dead-lettered, and the single terminal outcome is recorded exactly
once in the Bus delivery ledger. -/
theorem direct_message_terminal (maxAttempts : Nat) (evs : List BusEvent)
    (hmax : 0 < maxAttempts) (hlen : maxAttempts ≤ evs.length) :
    ((runDirect maxAttempts evs).status = .acked ∨
      (runDirect maxAttempts evs).status = .deadLettered) ∧
    (runDirect maxAttempts evs).ledger.length = 1 ∧
    ¬(DeliveryOutcome.delivered ∈ (runDirect maxAttempts evs).ledger ∧
      DeliveryOutcome.deadLettered ∈ (runDirect maxAttempts evs).ledger) ∧
    ((runDirect maxAttempts evs).status = .acked →
      (runDirect maxAttempts evs).ledger = [.delivered]) ∧
    ((runDirect maxAttempts evs).status = .deadLettered →
      (runDirect maxAttempts evs).ledger = [.deadLettered] ∧
        (runDirect maxAttempts evs).history.length = maxAttempts) := by
  have hinit : DirectInv maxAttempts 0 initDirect := by
    refine ⟨?_, ?_, ?_⟩ <;> intro hcon <;> simp_all [initDirect]
  have hinv := foldl_stepDirect_inv maxAttempts evs 0 initDirect hinit
  rw [Nat.zero_add] at hinv
  change DirectInv maxAttempts evs.length (runDirect maxAttempts evs)
    at hinv
  obtain ⟨hp, ha, hd⟩ := hinv
  have hterm : (runDirect maxAttempts evs).status = .acked ∨
      (runDirect maxAttempts evs).status = .deadLettered := by
    cases hs : (runDirect maxAttempts evs).status with
    | pending =>
        obtain ⟨_, hn, hlt, _⟩ := hp hs
        omega
    | acked => exact Or.inl rfl
    | deadLettered => exact Or.inr rfl
  refine ⟨hterm, ?_, ?_, ha, hd⟩
  · rcases hterm with hs | hs
    · rw [ha hs]; rfl
    · rw [(hd hs).1]; rfl
  · rcases hterm with hs | hs
    · rw [ha hs]
      intro hcon
      exact absurd hcon.2 (by simp)
    · rw [(hd hs).1]
      intro hcon
      exact absurd hcon.1 (by simp)

/-- Witness for C3: a direct message whose two allowed attempts both
fail is dead-lettered with its full attempt history. -/
theorem direct_message_terminal_witness :
    ((runDirect 2 [.deliverFail, .deliverFail]).status = .acked ∨
      (runDirect 2 [.deliverFail, .deliverFail]).status = .deadLettered) ∧
    (runDirect 2 [.deliverFail, .deliverFail]).ledger.length = 1 ∧
    ¬(DeliveryOutcome.delivered ∈
        (runDirect 2 [.deliverFail, .deliverFail]).ledger ∧
      DeliveryOutcome.deadLettered ∈
        (runDirect 2 [.deliverFail, .deliverFail]).ledger) ∧
    ((runDirect 2 [.deliverFail, .deliverFail]).status = .acked →
      (runDirect 2 [.deliverFail, .deliverFail]).ledger = [.delivered]) ∧
    ((runDirect 2 [.deliverFail, .deliverFail]).status = .deadLettered →
      (runDirect 2 [.deliverFail, .deliverFail]).ledger = [.deadLettered] ∧
        (runDirect 2 [.deliverFail, .deliverFail]).history.length = 2) :=
  direct_message_terminal 2 [.deliverFail, .deliverFail]
    (by decide) (by decide)

/-- Modelled from the spec: the task statuses of §3. -/
inductive TaskStatus where
  | pending
  | assigned
  | inReview
  | accepted
  | rejected
  | escalated
deriving DecidableEq

/-- Modelled from the spec: the legal edges of the per-task state machine
of §4.4: pending to assigned, assigned to in-review, in-review to one of
accepted, rejected or escalated, and rejected back to assigned. -/
def legalEdge : TaskStatus → TaskStatus → Bool
  | .pending, .assigned => true
  | .assigned, .inReview => true
  | .inReview, .accepted => true
  | .inReview, .rejected => true
  | .inReview, .escalated => true
  | .rejected, .assigned => true
  | _, _ => false

/-- Modelled from the spec: a Task as owned by the Task Router — its
current status and the ordered list of status transitions appended on
every transition (§3, §4.4). -/
structure Task where
  status : TaskStatus
  history : List (TaskStatus × TaskStatus)

/-- A freshly created task. -/
def initTask : Task :=
  { status := .pending, history := [] }

/-- Modelled from the spec: the Router performs a requested transition
only along a legal edge of the state machine, appending it to the task
history; an illegal request leaves the task unchanged (transitions are
exclusively Router-validated, §3). -/
def routerStep (t : Task) (target : TaskStatus) : Task :=
  if legalEdge t.status target then
    { status := target, history := t.history ++ [(t.status, target)] }
  else t

/-- Runs a sequence of requested transitions through the Router. -/
def runRouter (ops : List TaskStatus) : Task :=
  ops.foldl routerStep initTask

/-- The invariant of the task state machine: all recorded transitions are
legal, the recorded transitions chain from pending to the current
status, and reaching accepted requires an in-review to accepted edge in
the history. -/
def TaskInv (t : Task) : Prop :=
  (∀ e ∈ t.history, legalEdge e.1 e.2 = true) ∧
  (t.status = .accepted →
    (TaskStatus.inReview, TaskStatus.accepted) ∈ t.history)

theorem routerStep_inv {t : Task} (target : TaskStatus)
    (h : TaskInv t) : TaskInv (routerStep t target) := by
  obtain ⟨hall, hacc⟩ := h
  unfold routerStep
  by_cases hc : legalEdge t.status target = true
  · rw [if_pos hc]
    constructor
    · intro e he
      rcases List.mem_append.mp he with he | he
      · exact hall e he
      · rw [List.mem_singleton.mp he]
        exact hc
    · intro hs
      have htgt : target = .accepted := hs
      apply List.mem_append_right
      apply List.mem_singleton.mpr
      have hsrc : t.status = .inReview := by
        rw [htgt] at hc
        cases hstat : t.status <;> rw [hstat] at hc <;>
          simp_all [legalEdge]
      rw [hsrc, htgt]
  · rw [if_neg hc]
    exact ⟨hall, hacc⟩

theorem foldl_routerStep_inv (ops : List TaskStatus) :
    ∀ t : Task, TaskInv t → TaskInv (ops.foldl routerStep t) := by
  induction ops with
  | nil => intro t h; exact h
  | cons target rest ih =>
      intro t h
      exact ih (routerStep t target) (routerStep_inv target h)

/-- C4: for every sequence of requested transitions, the transitions
recorded in the task history follow only the legal edges of the state
machine pending to assigned to in-review to accepted, rejected (back to
assigned) or escalated; in particular a task that reached accepted has
an in-review to accepted transition in its history, so no task reaches
accepted without passing through in-review. -/
theorem task_history_legal (ops : List TaskStatus) :
    (∀ e ∈ (runRouter ops).history, legalEdge e.1 e.2 = true) ∧
    ((runRouter ops).status = .accepted →
      (TaskStatus.inReview, TaskStatus.accepted) ∈
        (runRouter ops).history) := by
  have hinit : TaskInv initTask := by
    constructor
    · intro e he
      exact absurd he (by simp [initTask])
    · intro hcon
      exact absurd hcon (by simp [initTask])
  exact foldl_routerStep_inv ops initTask hinit

/-- Witness for C4: a task driven to accepted has only legal transitions
in its history and passed through in-review. -/
theorem task_history_legal_witness :
    (TaskStatus.inReview, TaskStatus.accepted) ∈
      (runRouter [.assigned, .inReview, .accepted]).history :=
  (task_history_legal [.assigned, .inReview, .accepted]).2 (by decide)

/-- Modelled from the spec: a bus message envelope (§3), with the fields
the ordering guarantee depends on: the recipients it is addressed to and
the correlation id linking a request to its reply chain.  The remaining
fields (sender, kind, payload, creation time) are carried opaquely. -/
structure BusMsg where
  id : Nat
  sender : Nat
  recipients : List Nat
  correlationId : Nat
  payload : Nat
deriving DecidableEq

/-- Modelled from the spec: the Bus keeps a per-recipient delivery queue
(§5); `published` is the send order, `queues r` the messages enqueued
for recipient `r` and not yet delivered, `delivered r` the messages
handed to `r` in delivery order. -/
structure BusState where
  published : List BusMsg
  queues : Nat → List BusMsg
  delivered : Nat → List BusMsg

/-- The empty bus. -/
def initBus : BusState :=
  { published := [], queues := fun _ => [], delivered := fun _ => [] }

/-- Modelled from the spec: the two bus activities affecting ordering —
publishing a message (enqueued for each addressed recipient in send
order) and delivering the next queued message to a recipient. -/
inductive BusAct where
  | publishMsg (m : BusMsg)
  | deliverNext (r : Nat)

/-- One bus transition. -/
def busStep (s : BusState) (a : BusAct) : BusState :=
  match a with
  | .publishMsg m =>
      { published := s.published ++ [m],
        queues := fun r =>
          if m.recipients.contains r then s.queues r ++ [m]
          else s.queues r,
        delivered := s.delivered }
  | .deliverNext r =>
      match s.queues r with
      | [] => s
      | m :: rest =>
          { published := s.published,
            queues := fun q => if q = r then rest else s.queues q,
            delivered := fun q =>
              if q = r then s.delivered q ++ [m] else s.delivered q }

/-- Runs a sequence of bus activities from the empty bus. -/
def runBus (acts : List BusAct) : BusState :=
  acts.foldl busStep initBus

/-- The bus invariant: for every recipient, what was delivered followed
by what is still queued is exactly the send-order sequence of messages
addressed to that recipient. -/
def BusInv (s : BusState) : Prop :=
  ∀ r : Nat, s.delivered r ++ s.queues r =
    s.published.filter fun m => m.recipients.contains r

theorem busStep_inv {s : BusState} (a : BusAct) (h : BusInv s) :
    BusInv (busStep s a) := by
  cases a with
  | publishMsg m =>
      intro r
      show (s.delivered r) ++
          (if m.recipients.contains r then s.queues r ++ [m]
           else s.queues r) =
        (s.published ++ [m]).filter fun x => x.recipients.contains r
      rw [List.filter_append]
      by_cases hc : m.recipients.contains r = true
      · have hr : r ∈ m.recipients := by simpa using hc
        rw [if_pos hc]
        have hm : [m].filter (fun x => x.recipients.contains r) = [m] := by
          simp [hr]
        rw [hm, ← List.append_assoc, h r]
      · have hr : r ∉ m.recipients := by simpa using hc
        rw [if_neg hc]
        have hm : [m].filter (fun x => x.recipients.contains r) = [] := by
          simp [hr]
        rw [hm, List.append_nil, h r]
  | deliverNext r =>
      have hred : busStep s (.deliverNext r) =
          match s.queues r with
          | [] => s
          | m :: rest =>
              { published := s.published,
                queues := fun q => if q = r then rest else s.queues q,
                delivered := fun q =>
                  if q = r then s.delivered q ++ [m]
                  else s.delivered q } := rfl
      rw [hred]
      cases hq : s.queues r with
      | nil => exact h
      | cons m rest =>
          intro q
          show (if q = r then s.delivered q ++ [m] else s.delivered q) ++
              (if q = r then rest else s.queues q) =
            s.published.filter fun x => x.recipients.contains q
          by_cases hc : q = r
          · rw [if_pos hc, if_pos hc, List.append_assoc]
            subst hc
            rw [show [m] ++ rest = m :: rest from rfl, ← hq, h q]
          · rw [if_neg hc, if_neg hc]
            exact h q

theorem foldl_busStep_inv (acts : List BusAct) :
    ∀ s : BusState, BusInv s → BusInv (acts.foldl busStep s) := by
  induction acts with
  | nil => intro s h; exact h
  | cons a rest ih => intro s h; exact ih _ (busStep_inv a h)

theorem runBus_inv (acts : List BusAct) : BusInv (runBus acts) :=
  foldl_busStep_inv acts initBus (fun r => by simp [initBus])

/-- C6: for every recipient and correlation chain, the sequence of
messages of that chain delivered to the recipient is an initial segment
of the chain's messages addressed to that recipient in send order: the
delivery order equals the send order (nothing is claimed across
different correlation chains). -/
theorem correlation_chain_order (acts : List BusAct) (r c : Nat) :
    ∃ queued : List BusMsg,
      ((runBus acts).delivered r).filter
          (fun m => m.correlationId == c) ++ queued =
        ((runBus acts).published.filter
          (fun m => m.recipients.contains r)).filter
          (fun m => m.correlationId == c) := by
  refine ⟨((runBus acts).queues r).filter
    (fun m => m.correlationId == c), ?_⟩
  rw [← List.filter_append, runBus_inv acts r]

/-- Modelled from the spec: a message consumed by the agent runtime loop
(§4.5); only the correlation id matters to the reply contract. -/
structure AgentMsg where
  id : Nat
  correlationId : Nat
  payload : Nat
deriving DecidableEq

/-- Modelled from the spec: the outcome of the external-capability call
in the produce-a-result step — a produced result, or an unhandled
failure raised during production (§4.5, §6). -/
inductive CapOutcome where
  | success (output : Nat)
  | failure (err : Nat)
deriving DecidableEq

/-- Modelled from the spec: the kind of reply the runtime sends on the
bus — a result, or a rejected-result when production failed (§4.5). -/
inductive ReplyKind where
  | resultOk
  | resultRejected
deriving DecidableEq

/-- A reply sent on the bus with the correlation id preserved. -/
structure Reply where
  kind : ReplyKind
  correlationId : Nat
deriving DecidableEq

/-- The runtime state of one agent instance: what it has persisted to
memory and the replies it has sent. -/
structure AgentState where
  persisted : List Nat
  replies : List Reply
deriving DecidableEq

/-- Modelled from the spec: one iteration of the agent runtime loop
(§4.5).  A successful production is persisted and answered with a
result reply; an unhandled failure during production is caught and
converted into a rejected-result reply — not a crash — with the
correlation id preserved, and nothing is persisted. -/
def handleOne (s : AgentState) (m : AgentMsg) (out : CapOutcome) :
    AgentState :=
  match out with
  | .success v =>
      { persisted := s.persisted ++ [v],
        replies := s.replies ++ [⟨.resultOk, m.correlationId⟩] }
  | .failure _ =>
      { s with replies := s.replies ++ [⟨.resultRejected, m.correlationId⟩] }

/-- Modelled from the spec: the agent runtime loop over a sequence of
consumed messages paired with the capability outcome observed while
producing each result. -/
def runLoop (s : AgentState) : List (AgentMsg × CapOutcome) → AgentState
  | [] => s
  | (m, out) :: rest => runLoop (handleOne s m out) rest

/-- The reply each loop iteration produces. -/
def replyFor (p : AgentMsg × CapOutcome) : Reply :=
  match p.2 with
  | .success _ => ⟨.resultOk, p.1.correlationId⟩
  | .failure _ => ⟨.resultRejected, p.1.correlationId⟩

theorem runLoop_replies (inputs : List (AgentMsg × CapOutcome)) :
    ∀ s : AgentState,
      (runLoop s inputs).replies = s.replies ++ inputs.map replyFor := by
  induction inputs with
  | nil => intro s; simp [runLoop]
  | cons p rest ih =>
      intro s
      obtain ⟨m, out⟩ := p
      show (runLoop (handleOne s m out) rest).replies =
        s.replies ++ (replyFor (m, out) :: rest.map replyFor)
      rw [ih (handleOne s m out)]
      cases out with
      | success v =>
          show (s.replies ++ [⟨.resultOk, m.correlationId⟩]) ++
              rest.map replyFor =
            s.replies ++ (⟨.resultOk, m.correlationId⟩ :: rest.map replyFor)
          rw [List.append_assoc]
          rfl
      | failure e =>
          show (s.replies ++ [⟨.resultRejected, m.correlationId⟩]) ++
              rest.map replyFor =
            s.replies ++
              (⟨.resultRejected, m.correlationId⟩ :: rest.map replyFor)
          rw [List.append_assoc]
          rfl

/-- C7: whenever the produce-a-result step of some loop iteration raises
an unhandled failure, the runtime catches it and replies on the bus with
a rejected-result message carrying the message correlation id, and the
loop continues: every earlier and every later message still gets exactly
one reply, so a failure local to one message never terminates the
loop. -/
theorem runtime_failure_contained (s : AgentState)
    (pre post : List (AgentMsg × CapOutcome)) (m : AgentMsg) (err : Nat)
    (inputs : List (AgentMsg × CapOutcome))
    (hsplit : inputs = pre ++ (m, CapOutcome.failure err) :: post) :
    (runLoop s inputs).replies =
      s.replies ++ pre.map replyFor ++
        [⟨ReplyKind.resultRejected, m.correlationId⟩] ++
        post.map replyFor := by
  rw [hsplit, runLoop_replies]
  rw [List.map_append]
  show s.replies ++ (pre.map replyFor ++
      (⟨ReplyKind.resultRejected, m.correlationId⟩ :: post.map replyFor)) =
    _
  simp [List.append_assoc]

/-- Witness for C7: a failing middle message yields a rejected-result
reply while the surrounding messages are still answered. -/
theorem runtime_failure_contained_witness :
    (runLoop ⟨[], []⟩
      [(⟨1, 11, 0⟩, CapOutcome.success 5),
       (⟨2, 22, 0⟩, CapOutcome.failure 9),
       (⟨3, 33, 0⟩, CapOutcome.success 6)]).replies =
      ([] : List Reply) ++
        [(⟨1, 11, 0⟩, CapOutcome.success 5)].map replyFor ++
        [⟨ReplyKind.resultRejected, 22⟩] ++
        [(⟨3, 33, 0⟩, CapOutcome.success 6)].map replyFor :=
  runtime_failure_contained ⟨[], []⟩
    [(⟨1, 11, 0⟩, CapOutcome.success 5)]
    [(⟨3, 33, 0⟩, CapOutcome.success 6)]
    ⟨2, 22, 0⟩ 9
    [(⟨1, 11, 0⟩, CapOutcome.success 5),
     (⟨2, 22, 0⟩, CapOutcome.failure 9),
     (⟨3, 33, 0⟩, CapOutcome.success 6)] rfl

end AgentCore

namespace ProjectManagement

/-- A project row as rendered by the ProjectManagement page, with the
fields the verified behaviour depends on. -/
structure Project where
  id : String
  name : String
  status : String
  progress : Nat
  priority : String
  assignedAgents : List String
deriving DecidableEq

/-- The mock project rows of the ProjectManagement page. -/
def projects : List Project :=
  [⟨"proj-001", "电商平台重构", "active", 75, "high",
      ["PM-Agent", "Architect-Agent", "Developer-Agent", "QA-Agent"]⟩,
   ⟨"proj-002", "移动端App开发", "planning", 15, "medium",
      ["PM-Agent", "Architect-Agent"]⟩,
   ⟨"proj-003", "数据分析平台", "completed", 100, "high",
      ["PM-Agent", "Architect-Agent", "Developer-Agent", "QA-Agent"]⟩]

/-- The component state of the ProjectManagement page: the create-project
dialog flag, the project selected for viewing, and the details-dialog
flag, next to the rendered project records. -/
structure PageState where
  projects : List Project
  createProjectOpen : Bool
  selectedProject : Option Project
  projectDetailsOpen : Bool

/-- `handleProjectView` from the ProjectManagement page: it sets the
dialog-selection state and opens the details dialog. -/
def handleProjectView (project : Project) (s : PageState) : PageState :=
  { s with selectedProject := some project, projectDetailsOpen := true }

/-- `getStatusColor` from the ProjectManagement page. -/
def getStatusColor (status : String) : String :=
  if status = "active" then "#4caf50"
  else if status = "planning" then "#ff9800"
  else if status = "paused" then "#f44336"
  else if status = "completed" then "#2196f3"
  else "#9e9e9e"

/-- `getStatusText` from the ProjectManagement page. -/
def getStatusText (status : String) : String :=
  if status = "active" then "进行中"
  else if status = "planning" then "规划中"
  else if status = "paused" then "已暂停"
  else if status = "completed" then "已完成"
  else "未知"

/-- One cell of the agent-avatar row in the project table: an agent
avatar, or the grey overflow badge. -/
inductive AvatarCell where
  | agentAvatar (agentName : String)
  | overflowBadge (label : String)
deriving DecidableEq

/-- The agent-avatar row the project table renders for one project: an
avatar for each of the first three assigned agents, then the overflow
badge labelled with a plus sign and the number of remaining agents when
more than three are assigned. -/
def agentAvatarRow (assignedAgents : List String) : List AvatarCell :=
  (assignedAgents.take 3).map AvatarCell.agentAvatar ++
    (if 3 < assignedAgents.length then
      [AvatarCell.overflowBadge ("+" ++ toString (assignedAgents.length - 3))]
    else [])

/-- Whether a cell is an agent avatar. -/
def isAvatarCell : AvatarCell → Bool
  | .agentAvatar _ => true
  | .overflowBadge _ => false

/-- Whether a cell is the overflow badge. -/
def isBadgeCell : AvatarCell → Bool
  | .agentAvatar _ => false
  | .overflowBadge _ => true

end ProjectManagement

namespace AgentMonitoring

/-- `getStatusColor` from the AgentMonitoring page. -/
def getStatusColor (status : String) : String :=
  if status = "active" then "#4caf50"
  else if status = "busy" then "#ff9800"
  else if status = "idle" then "#2196f3"
  else if status = "error" then "#f44336"
  else "#9e9e9e"

/-- `getStatusText` from the AgentMonitoring page. -/
def getStatusText (status : String) : String :=
  if status = "active" then "活跃"
  else if status = "busy" then "繁忙"
  else if status = "idle" then "空闲"
  else if status = "error" then "错误"
  else "未知"

end AgentMonitoring

namespace TaskAnalysis

/-- A task row as rendered by the TaskAnalysis page, with the fields the
verified behaviour depends on. -/
structure TaskRow where
  id : String
  title : String
  status : String
  priority : String
  assignedAgent : String
  progress : Nat
deriving DecidableEq

/-- The mock task rows of the TaskAnalysis page. -/
def tasks : List TaskRow :=
  [⟨"task-001", "用户认证系统开发", "in_progress", "high",
      "Developer-Agent", 75⟩,
   ⟨"task-002", "数据库架构设计", "completed", "high",
      "Architect-Agent", 100⟩,
   ⟨"task-003", "用户故事梳理", "pending", "medium", "PM-Agent", 0⟩,
   ⟨"task-004", "API接口测试", "in_progress", "medium", "QA-Agent", 50⟩,
   ⟨"task-005", "Sprint计划制定", "completed", "high",
      "Manager-Agent", 100⟩]

/-- The component state of the TaskAnalysis page: the tab index, the
details-dialog flag, the task selected for viewing and the create-task
dialog flag, next to the rendered task records. -/
structure PageState where
  tasks : List TaskRow
  tabValue : Nat
  taskDetailsOpen : Bool
  selectedTask : Option TaskRow
  createTaskOpen : Bool

/-- `handleTaskView` from the TaskAnalysis page: it sets the
dialog-selection state and opens the details dialog. -/
def handleTaskView (task : TaskRow) (s : PageState) : PageState :=
  { s with selectedTask := some task, taskDetailsOpen := true }

/-- `getStatusColor` from the TaskAnalysis page. -/
def getStatusColor (status : String) : String :=
  if status = "completed" then "#4caf50"
  else if status = "in_progress" then "#ff9800"
  else if status = "pending" then "#2196f3"
  else if status = "cancelled" then "#f44336"
  else "#9e9e9e"

/-- `getStatusText` from the TaskAnalysis page. -/
def getStatusText (status : String) : String :=
  if status = "completed" then "已完成"
  else if status = "in_progress" then "进行中"
  else if status = "pending" then "待开始"
  else if status = "cancelled" then "已取消"
  else "未知"

end TaskAnalysis

/-- C8: the dashboard view handlers are read-only with respect to the
task and project records they display: `handleTaskView` and
`handleProjectView` only set the local dialog-selection state, and the
underlying task and project lists are unchanged afterwards — in
particular on the concrete page data. -/
theorem dashboard_handlers_readonly :
    ∀ (t : TaskAnalysis.TaskRow) (s : TaskAnalysis.PageState)
      (p : ProjectManagement.Project) (u : ProjectManagement.PageState),
      (TaskAnalysis.handleTaskView t s).tasks = s.tasks ∧
      (ProjectManagement.handleProjectView p u).projects = u.projects ∧
      (TaskAnalysis.handleTaskView t
        ⟨TaskAnalysis.tasks, 0, false, none, false⟩).tasks =
          TaskAnalysis.tasks ∧
      (ProjectManagement.handleProjectView p
        ⟨ProjectManagement.projects, false, none, false⟩).projects =
          ProjectManagement.projects := by
  intro t s p u
  exact ⟨rfl, rfl, rfl, rfl⟩

/-- C9: the status-display helpers of the three dashboard pages are
total with an explicit fallback: any status string outside the
enumerated cases is rendered with the neutral color 9e9e9e and the text
未知. -/
theorem status_helpers_default (s : String) :
    (s ∉ ["active", "planning", "paused", "completed"] →
      ProjectManagement.getStatusColor s = "#9e9e9e" ∧
      ProjectManagement.getStatusText s = "未知") ∧
    (s ∉ ["active", "busy", "idle", "error"] →
      AgentMonitoring.getStatusColor s = "#9e9e9e" ∧
      AgentMonitoring.getStatusText s = "未知") ∧
    (s ∉ ["completed", "in_progress", "pending", "cancelled"] →
      TaskAnalysis.getStatusColor s = "#9e9e9e" ∧
      TaskAnalysis.getStatusText s = "未知") := by
  refine ⟨fun h => ?_, fun h => ?_, fun h => ?_⟩ <;>
    simp only [List.mem_cons, List.mem_singleton, not_or] at h <;>
    obtain ⟨h1, h2, h3, h4, -⟩ := h
  · exact ⟨by simp [ProjectManagement.getStatusColor, h1, h2, h3, h4],
      by simp [ProjectManagement.getStatusText, h1, h2, h3, h4]⟩
  · exact ⟨by simp [AgentMonitoring.getStatusColor, h1, h2, h3, h4],
      by simp [AgentMonitoring.getStatusText, h1, h2, h3, h4]⟩
  · exact ⟨by simp [TaskAnalysis.getStatusColor, h1, h2, h3, h4],
      by simp [TaskAnalysis.getStatusText, h1, h2, h3, h4]⟩

/-- Witness for C9 at a status string outside every enumerated list. -/
theorem status_helpers_default_witness :
    (("failed" : String) ∉
        ["active", "planning", "paused", "completed"] →
      ProjectManagement.getStatusColor "failed" = "#9e9e9e" ∧
      ProjectManagement.getStatusText "failed" = "未知") ∧
    (("failed" : String) ∉ ["active", "busy", "idle", "error"] →
      AgentMonitoring.getStatusColor "failed" = "#9e9e9e" ∧
      AgentMonitoring.getStatusText "failed" = "未知") ∧
    (("failed" : String) ∉
        ["completed", "in_progress", "pending", "cancelled"] →
      TaskAnalysis.getStatusColor "failed" = "#9e9e9e" ∧
      TaskAnalysis.getStatusText "failed" = "未知") :=
  status_helpers_default "failed"

/-- C10: for every project, the rendered agent-avatar row has exactly
min(assignedAgents.length, 3) agent avatars, followed by exactly one
overflow badge labelled with a plus sign and the number of remaining
agents if and only if more than three agents are assigned, and no
overflow badge otherwise. -/
theorem avatar_row_spec (agents : List String) :
    ((ProjectManagement.agentAvatarRow agents).filter
        ProjectManagement.isAvatarCell).length = min agents.length 3 ∧
    (ProjectManagement.agentAvatarRow agents).filter
        ProjectManagement.isBadgeCell =
      (if 3 < agents.length then
        [ProjectManagement.AvatarCell.overflowBadge
          ("+" ++ toString (agents.length - 3))]
      else []) ∧
    ProjectManagement.agentAvatarRow agents =
      (ProjectManagement.agentAvatarRow agents).filter
          ProjectManagement.isAvatarCell ++
        (ProjectManagement.agentAvatarRow agents).filter
          ProjectManagement.isBadgeCell := by
  have havatars : ((agents.take 3).map
      ProjectManagement.AvatarCell.agentAvatar).filter
      ProjectManagement.isAvatarCell =
      (agents.take 3).map ProjectManagement.AvatarCell.agentAvatar := by
    apply List.filter_eq_self.mpr
    intro a ha
    obtain ⟨x, -, hx⟩ := List.mem_map.mp ha
    rw [← hx]
    rfl
  have hnobadge : ((agents.take 3).map
      ProjectManagement.AvatarCell.agentAvatar).filter
      ProjectManagement.isBadgeCell = [] := by
    apply List.filter_eq_nil_iff.mpr
    intro a ha
    obtain ⟨x, -, hx⟩ := List.mem_map.mp ha
    rw [← hx]
    simp [ProjectManagement.isBadgeCell]
  have hbadgepart : ∀ l : List ProjectManagement.AvatarCell,
      (l = [] ∨ ∃ lab, l = [ProjectManagement.AvatarCell.overflowBadge lab]) →
      l.filter ProjectManagement.isAvatarCell = [] ∧
      l.filter ProjectManagement.isBadgeCell = l := by
    rintro l (rfl | ⟨lab, rfl⟩)
    · exact ⟨rfl, rfl⟩
    · exact ⟨rfl, rfl⟩
  have hsplit := hbadgepart
    (if 3 < agents.length then
      [ProjectManagement.AvatarCell.overflowBadge
        ("+" ++ toString (agents.length - 3))]
    else [])
    (by split
        · exact Or.inr ⟨_, rfl⟩
        · exact Or.inl rfl)
  unfold ProjectManagement.agentAvatarRow
  rw [List.filter_append, List.filter_append, havatars, hnobadge,
    hsplit.1, hsplit.2, List.append_nil, List.nil_append]
  refine ⟨?_, rfl, rfl⟩
  rw [List.length_map, List.length_take]
  omega
